import Mathlib

/-!
# Verification of the ADF Agent streaming core

Shallow embedding of the stream-processing core of the `adf_agent` CLI:
`stream/token_tracker.py` (token usage tracking), `stream/tracker.py`
(tool-call reconstruction), and `cli.py` (session state aggregation and
layout allocation).  Python `int` token counts are modelled as `Nat`
(the spec fixes all usage figures as non-negative integers); terminal
heights are modelled as `Int` since callers may pass arbitrary values.
Python dictionaries keyed by tool id are modelled as insertion-ordered
lists of records, matching `dict`'s iteration-order guarantee.
-/

namespace ADFAgent

/-! ## Token tracking (`stream/token_tracker.py`) -/

/-- `TokenUsageInfo` dataclass: five token-count fields, all defaulting
to zero. -/
structure TokenUsageInfo where
  input_tokens : Nat := 0
  output_tokens : Nat := 0
  total_tokens : Nat := 0
  cache_creation_input_tokens : Nat := 0
  cache_read_input_tokens : Nat := 0
deriving Repr, DecidableEq

/-- `TokenUsageInfo.__add__`: field-wise sum. -/
def TokenUsageInfo.add (a b : TokenUsageInfo) : TokenUsageInfo where
  input_tokens := a.input_tokens + b.input_tokens
  output_tokens := a.output_tokens + b.output_tokens
  total_tokens := a.total_tokens + b.total_tokens
  cache_creation_input_tokens :=
    a.cache_creation_input_tokens + b.cache_creation_input_tokens
  cache_read_input_tokens :=
    a.cache_read_input_tokens + b.cache_read_input_tokens

/-- The quadruple `(input, output, cache_creation, cache_read)` that
`TokenTracker._extract_usage` pulls out of a `usage_metadata` report
(missing fields already defaulted to 0). -/
structure UsageReport where
  input_tokens : Nat
  output_tokens : Nat
  cache_creation : Nat
  cache_read : Nat
deriving Repr, DecidableEq

/-- `TokenTracker` dataclass state: current-turn accumulator, running
total, and the has-current-usage flag.  Field names drop Python's
leading underscore. -/
structure TokenTracker where
  current_turn : TokenUsageInfo := {}
  total : TokenUsageInfo := {}
  has_current_usage : Bool := false
deriving Repr, DecidableEq

/-- `TokenTracker.update`: a falsy `usage_metadata` (`none`) is ignored;
otherwise, when `input_tokens > 0 or output_tokens > 0`, the current
turn is merged by field-wise `max` and `total_tokens` recomputed as the
merged input plus merged output. -/
def TokenTracker.update (t : TokenTracker) (usage : Option UsageReport) :
    TokenTracker :=
  match usage with
  | none => t
  | some u =>
    if u.input_tokens > 0 ∨ u.output_tokens > 0 then
      let cur := t.current_turn
      let merged_input := max cur.input_tokens u.input_tokens
      let merged_output := max cur.output_tokens u.output_tokens
      { t with
        current_turn :=
          { input_tokens := merged_input
            output_tokens := merged_output
            total_tokens := merged_input + merged_output
            cache_creation_input_tokens :=
              max cur.cache_creation_input_tokens u.cache_creation
            cache_read_input_tokens :=
              max cur.cache_read_input_tokens u.cache_read }
        has_current_usage := true }
    else t

/-- `TokenTracker.finalize_turn`: when current-turn data exists, add it
into the total, reset the accumulator and the flag, and return the
turn's usage; otherwise return `none`. -/
def TokenTracker.finalize_turn (t : TokenTracker) :
    TokenTracker × Option TokenUsageInfo :=
  if t.has_current_usage then
    ({ current_turn := {},
       total := t.total.add t.current_turn,
       has_current_usage := false }, some t.current_turn)
  else (t, none)

/-- `TokenTracker.get_usage`: total plus the unfinalized current turn,
if any. -/
def TokenTracker.get_usage (t : TokenTracker) : TokenUsageInfo :=
  if t.has_current_usage then t.total.add t.current_turn else t.total

/-- `TokenTracker.reset` produces the all-zero state, which is also the
freshly-constructed state. -/
def TokenTracker.reset (_t : TokenTracker) : TokenTracker := {}

/-- One operation on a `TokenTracker`: an `update` with an extracted
report (or a falsy one), or a `finalize_turn`. -/
inductive TokenOp where
  | update (usage : Option UsageReport)
  | finalize
deriving Repr, DecidableEq

/-- Apply one operation, recording `finalize_turn`'s return value. -/
def TokenTracker.step (t : TokenTracker) (op : TokenOp) :
    TokenTracker × Option TokenUsageInfo :=
  match op with
  | .update u => (t.update u, none)
  | .finalize => t.finalize_turn

/-- Run a sequence of operations, collecting every `finalize_turn`
return value (`none` entries are the "no usage" returns). -/
def TokenTracker.run (t : TokenTracker) :
    List TokenOp → TokenTracker × List (Option TokenUsageInfo)
  | [] => (t, [])
  | op :: ops =>
    let s := t.step op
    let r := TokenTracker.run s.1 ops
    (r.1, s.2 :: r.2)

/-- Field-wise sum of a list of usage values. -/
def sumUsages (l : List TokenUsageInfo) : TokenUsageInfo :=
  l.foldl TokenUsageInfo.add {}

theorem TokenUsageInfo.add_zero_right (a : TokenUsageInfo) :
    a.add {} = a := by
  cases a; simp [TokenUsageInfo.add]

theorem sumUsages_cons_foldl (init : TokenUsageInfo)
    (l : List TokenUsageInfo) :
    l.foldl TokenUsageInfo.add init
      = init.add (l.foldl TokenUsageInfo.add {}) := by
  induction l generalizing init with
  | nil => simp [TokenUsageInfo.add_zero_right]
  | cons x xs ih =>
    simp only [List.foldl_cons]
    rw [ih, ih (TokenUsageInfo.add {} x)]
    cases init; cases x
    cases xs.foldl TokenUsageInfo.add {}
    simp [TokenUsageInfo.add]
    omega

theorem TokenTracker.run_total (ops : List TokenOp) (t : TokenTracker) :
    (TokenTracker.run t ops).1.total
      = t.total.add (sumUsages ((TokenTracker.run t ops).2.filterMap id)) := by
  induction ops generalizing t with
  | nil => simp [TokenTracker.run, sumUsages, TokenUsageInfo.add_zero_right]
  | cons op ops ih =>
    match op with
    | .update u =>
      simp only [TokenTracker.run, TokenTracker.step]
      rw [ih]
      simp [TokenTracker.update]
      split
      · rfl
      · split <;> rfl
    | .finalize =>
      simp only [TokenTracker.run, TokenTracker.step, TokenTracker.finalize_turn]
      by_cases h : t.has_current_usage
      · simp only [h, if_pos]
        rw [ih]
        simp only [List.filterMap_cons]
        simp [sumUsages, sumUsages_cons_foldl (TokenUsageInfo.add {} t.current_turn)]
        rw [sumUsages_cons_foldl]
        cases t.total; cases t.current_turn
        cases ((TokenTracker.run _ ops).2.filterMap id).foldl TokenUsageInfo.add {}
        simp [TokenUsageInfo.add]
        omega
      · simp only [if_neg h]
        rw [ih]
        simp

/-- C5: two consecutive `finalize_turn` calls with no `update` in
between return first a value-or-`none` and then necessarily `none`;
and after any sequence of `update`/`finalize_turn` operations starting
from the reset state, the accumulated total `_total` equals the
field-wise sum of all non-`none` values ever returned by
`finalize_turn`. -/
theorem finalize_exactness :
    (∀ t : TokenTracker, ((t.finalize_turn.1).finalize_turn).2 = none) ∧
    (∀ ops : List TokenOp,
      (TokenTracker.run {} ops).1.total
        = sumUsages ((TokenTracker.run {} ops).2.filterMap id)) := by
  constructor
  · intro t
    simp only [TokenTracker.finalize_turn]
    by_cases h : t.has_current_usage
    · simp [h]
    · simp [h]
  · intro ops
    have h := TokenTracker.run_total ops {}
    rw [h]
    generalize sumUsages ((TokenTracker.run {} ops).2.filterMap id) = s
    cases s; simp [TokenUsageInfo.add]

/-- Apply a sequence of `update` calls (one unfinalized turn). -/
def applyUpdates (t : TokenTracker) (rs : List (Option UsageReport)) :
    TokenTracker :=
  rs.foldl TokenTracker.update t

theorem applyUpdates_total_inv (rs : List (Option UsageReport))
    (t : TokenTracker)
    (h : t.current_turn.total_tokens
        = t.current_turn.input_tokens + t.current_turn.output_tokens) :
    (applyUpdates t rs).current_turn.total_tokens
      = (applyUpdates t rs).current_turn.input_tokens
        + (applyUpdates t rs).current_turn.output_tokens := by
  induction rs generalizing t with
  | nil => simpa [applyUpdates]
  | cons r rs ih =>
    simp only [applyUpdates, List.foldl_cons]
    apply ih
    match r with
    | none => simpa [TokenTracker.update]
    | some u =>
      simp only [TokenTracker.update]
      split
      · simp
      · simpa

/-- C6: within one unfinalized turn (updates only, starting from the
fresh accumulator), every one of the five fields of the current-turn
accumulator is non-decreasing across each further `update` call. -/
theorem token_merge_monotonicity (rs : List (Option UsageReport))
    (r : Option UsageReport) :
    let cur := (applyUpdates {} rs).current_turn
    let cur' := (applyUpdates {} (rs ++ [r])).current_turn
    cur.input_tokens ≤ cur'.input_tokens ∧
    cur.output_tokens ≤ cur'.output_tokens ∧
    cur.total_tokens ≤ cur'.total_tokens ∧
    cur.cache_creation_input_tokens ≤ cur'.cache_creation_input_tokens ∧
    cur.cache_read_input_tokens ≤ cur'.cache_read_input_tokens := by
  intro cur cur'
  have htot : cur.total_tokens = cur.input_tokens + cur.output_tokens :=
    applyUpdates_total_inv rs {} (by simp)
  have hdef : cur' = (TokenTracker.update (applyUpdates {} rs) r).current_turn := by
    simp [cur', applyUpdates, List.foldl_append]
  rw [hdef]
  match r with
  | none => simp [TokenTracker.update, cur]
  | some u =>
    simp only [TokenTracker.update]
    split
    · refine ⟨le_max_left _ _, le_max_left _ _, ?_, le_max_left _ _, le_max_left _ _⟩
      calc cur.total_tokens = cur.input_tokens + cur.output_tokens := htot
        _ ≤ max cur.input_tokens u.input_tokens
            + max cur.output_tokens u.output_tokens :=
          Nat.add_le_add (le_max_left _ _) (le_max_left _ _)
    · simp [cur]

/-! ### Containment of cache tokens in `input_tokens` -/

/-- The containment contract on a usage value:
`input_tokens ≥ cache_creation_input_tokens + cache_read_input_tokens`. -/
def TokenUsageInfo.Containment (u : TokenUsageInfo) : Prop :=
  u.cache_creation_input_tokens + u.cache_read_input_tokens ≤ u.input_tokens

instance (u : TokenUsageInfo) : Decidable u.Containment :=
  inferInstanceAs (Decidable (_ ≤ _))

/-- The containment contract on an extracted report. -/
def UsageReport.Containment (r : UsageReport) : Prop :=
  r.cache_creation + r.cache_read ≤ r.input_tokens

instance (r : UsageReport) : Decidable r.Containment :=
  inferInstanceAs (Decidable (_ ≤ _))

/-- Field-wise order on the `(input, cache_creation, cache_read)`
projection of two reports. -/
def UsageReport.cacheLE (a b : UsageReport) : Prop :=
  a.input_tokens ≤ b.input_tokens ∧ a.cache_creation ≤ b.cache_creation ∧
    a.cache_read ≤ b.cache_read

instance (a b : UsageReport) : Decidable (a.cacheLE b) :=
  inferInstanceAs (Decidable (_ ∧ _))

/-- Two reports are comparable when one's
`(input, cache_creation, cache_read)` projection dominates the
other's. -/
def UsageReport.Comparable (a b : UsageReport) : Prop :=
  a.cacheLE b ∨ b.cacheLE a

instance (a b : UsageReport) : Decidable (a.Comparable b) :=
  inferInstanceAs (Decidable (_ ∨ _))

/-- Comparability between an accumulator value and a report, on the
same projection. -/
def CompWith (u : TokenUsageInfo) (r : UsageReport) : Prop :=
  (u.input_tokens ≤ r.input_tokens ∧
    u.cache_creation_input_tokens ≤ r.cache_creation ∧
    u.cache_read_input_tokens ≤ r.cache_read) ∨
  (r.input_tokens ≤ u.input_tokens ∧
    r.cache_creation ≤ u.cache_creation_input_tokens ∧
    r.cache_read ≤ u.cache_read_input_tokens)

/-- The non-falsy reports fed to `update` in an operation sequence. -/
def opReports (ops : List TokenOp) : List UsageReport :=
  ops.filterMap fun op =>
    match op with
    | .update (some r) => some r
    | _ => none

/-- The reports of each turn: maximal runs of `update` reports
delimited by `finalize_turn` operations. -/
def turnSegments : List TokenOp → List (List UsageReport)
  | [] => [[]]
  | TokenOp.update none :: ops => turnSegments ops
  | TokenOp.update (some r) :: ops =>
    match turnSegments ops with
    | [] => [[r]]
    | s :: ss => (r :: s) :: ss
  | TokenOp.finalize :: ops => [] :: turnSegments ops

theorem turnSegments_ne_nil (ops : List TokenOp) : turnSegments ops ≠ [] := by
  match ops with
  | [] => simp [turnSegments]
  | TokenOp.update none :: ops => simpa [turnSegments] using turnSegments_ne_nil ops
  | TokenOp.update (some r) :: ops =>
    simp only [turnSegments]
    split <;> simp
  | TokenOp.finalize :: ops => simp [turnSegments]

/-- The current (first) turn's reports in an operation sequence. -/
def headSeg (ops : List TokenOp) : List UsageReport :=
  (turnSegments ops).headI

theorem TokenUsageInfo.Containment.add {a b : TokenUsageInfo}
    (ha : a.Containment) (hb : b.Containment) : (a.add b).Containment := by
  simp only [TokenUsageInfo.Containment, TokenUsageInfo.add] at *
  omega

theorem turnSegments_cons_some (r : UsageReport) (ops : List TokenOp) :
    turnSegments (TokenOp.update (some r) :: ops)
      = (r :: headSeg ops) :: (turnSegments ops).tail := by
  simp only [turnSegments]
  rcases h : turnSegments ops with _ | ⟨s, ss⟩
  · exact absurd h (turnSegments_ne_nil ops)
  · simp [headSeg, h]

theorem turnSegments_headI_tail (ops : List TokenOp) :
    turnSegments ops = headSeg ops :: (turnSegments ops).tail := by
  rcases h : turnSegments ops with _ | ⟨s, ss⟩
  · exact absurd h (turnSegments_ne_nil ops)
  · simp [headSeg, h]

theorem opReports_cons_some (r : UsageReport) (ops : List TokenOp) :
    opReports (TokenOp.update (some r) :: ops) = r :: opReports ops := by
  simp [opReports]

theorem opReports_cons_none (ops : List TokenOp) :
    opReports (TokenOp.update none :: ops) = opReports ops := by
  simp [opReports]

theorem opReports_cons_finalize (ops : List TokenOp) :
    opReports (TokenOp.finalize :: ops) = opReports ops := by
  simp [opReports]

theorem TokenTracker.update_some_pos (t : TokenTracker) (u : UsageReport)
    (h : u.input_tokens > 0 ∨ u.output_tokens > 0) :
    t.update (some u) =
      { t with
        current_turn :=
          { input_tokens := max t.current_turn.input_tokens u.input_tokens
            output_tokens := max t.current_turn.output_tokens u.output_tokens
            total_tokens := max t.current_turn.input_tokens u.input_tokens
              + max t.current_turn.output_tokens u.output_tokens
            cache_creation_input_tokens :=
              max t.current_turn.cache_creation_input_tokens u.cache_creation
            cache_read_input_tokens :=
              max t.current_turn.cache_read_input_tokens u.cache_read }
        has_current_usage := true } := by
  simp [TokenTracker.update, h]

theorem TokenTracker.update_some_neg (t : TokenTracker) (u : UsageReport)
    (h : ¬(u.input_tokens > 0 ∨ u.output_tokens > 0)) :
    t.update (some u) = t := by
  simp only [TokenTracker.update]
  rw [if_neg h]

theorem headSeg_cons_some (r : UsageReport) (ops : List TokenOp) :
    headSeg (TokenOp.update (some r) :: ops) = r :: headSeg ops := by
  simp [headSeg, turnSegments_cons_some]

theorem run_containment_aux (ops : List TokenOp) (t : TokenTracker)
    (hrep : ∀ r ∈ opReports ops, r.Containment)
    (hsegs : ∀ seg ∈ turnSegments ops, List.Pairwise UsageReport.Comparable seg)
    (hcur : t.current_turn.Containment)
    (htot : t.total.Containment)
    (hcomp : ∀ q ∈ headSeg ops, CompWith t.current_turn q)
    (hflag : t.has_current_usage = false → t.current_turn = {}) :
    (TokenTracker.run t ops).1.current_turn.Containment ∧
    (TokenTracker.run t ops).1.total.Containment ∧
    (∀ u ∈ (TokenTracker.run t ops).2.filterMap id, u.Containment) := by
  induction ops generalizing t with
  | nil => exact ⟨hcur, htot, by simp [TokenTracker.run]⟩
  | cons op ops ih =>
    match op with
    | .update none =>
      simp only [TokenTracker.run, TokenTracker.step, TokenTracker.update,
        List.filterMap_cons]
      refine ih t ?_ ?_ hcur htot ?_ hflag
      · rw [opReports_cons_none] at hrep; exact hrep
      · intro seg hmem; exact hsegs seg (by simpa [turnSegments] using hmem)
      · intro q hq; exact hcomp q (by simpa [headSeg, turnSegments] using hq)
    | .update (some r) =>
      rw [opReports_cons_some] at hrep
      have hrep' : ∀ q ∈ opReports ops, q.Containment :=
        fun q hq => hrep q (List.mem_cons_of_mem _ hq)
      have hrepr : r.Containment := hrep r (List.mem_cons_self _ _)
      have hseg1 : List.Pairwise UsageReport.Comparable (r :: headSeg ops) := by
        apply hsegs
        rw [turnSegments_cons_some]
        exact List.mem_cons_self _ _
      have hsegs' : ∀ seg ∈ turnSegments ops,
          List.Pairwise UsageReport.Comparable seg := by
        intro seg hmem
        rw [turnSegments_headI_tail ops] at hmem
        rcases List.mem_cons.mp hmem with rfl | hss
        · exact hseg1.sublist (List.sublist_cons_self _ _)
        · exact hsegs seg
            (by rw [turnSegments_cons_some]; exact List.mem_cons_of_mem _ hss)
      have hcompr : CompWith t.current_turn r :=
        hcomp r (by rw [headSeg_cons_some]; exact List.mem_cons_self _ _)
      have hcomps : ∀ q ∈ headSeg ops, CompWith t.current_turn q :=
        fun q hq => hcomp q (by rw [headSeg_cons_some]; exact List.mem_cons_of_mem _ hq)
      simp only [TokenTracker.run, TokenTracker.step, List.filterMap_cons]
      by_cases hg : r.input_tokens > 0 ∨ r.output_tokens > 0
      · rw [TokenTracker.update_some_pos t r hg]
        refine ih _ hrep' hsegs' ?_ htot ?_ (by simp)
        · have hc := hcur
          simp only [TokenUsageInfo.Containment] at hc ⊢
          simp only [UsageReport.Containment] at hrepr
          rcases hcompr with ⟨h1, h2, h3⟩ | ⟨h1, h2, h3⟩ <;> omega
        · intro q hq
          have hc2 := (List.pairwise_cons.mp hseg1).1 q hq
          have hc1 := hcomps q hq
          simp only [CompWith] at hc1 ⊢
          simp only [UsageReport.Comparable, UsageReport.cacheLE] at hc2
          rcases hcompr with ⟨h1, h2, h3⟩ | ⟨h1, h2, h3⟩ <;> omega
      · rw [TokenTracker.update_some_neg t r hg]
        exact ih t hrep' hsegs' hcur htot hcomps hflag
    | .finalize =>
      rw [opReports_cons_finalize] at hrep
      have hsegs' : ∀ seg ∈ turnSegments ops,
          List.Pairwise UsageReport.Comparable seg := by
        intro seg hmem
        exact hsegs seg (by simp [turnSegments, hmem])
      have hzero : ∀ q ∈ headSeg ops, CompWith ({} : TokenUsageInfo) q := by
        intro q _; left; exact ⟨Nat.zero_le _, Nat.zero_le _, Nat.zero_le _⟩
      simp only [TokenTracker.run, TokenTracker.step, TokenTracker.finalize_turn]
      by_cases h : t.has_current_usage
      · simp only [if_pos h, List.filterMap_cons]
        have hnext := ih
          { current_turn := {}
            total := t.total.add t.current_turn
            has_current_usage := false }
          hrep hsegs' (by simp [TokenUsageInfo.Containment]) (htot.add hcur)
          hzero (by simp)
        refine ⟨hnext.1, hnext.2.1, ?_⟩
        intro u hu
        simp only [id] at hu
        rcases List.mem_cons.mp hu with rfl | hmem
        · exact hcur
        · exact hnext.2.2 u hmem
      · simp only [if_neg h, List.filterMap_cons]
        have hcz := hflag (by simpa using h)
        refine ih t hrep hsegs' hcur htot ?_ hflag
        rw [hcz]; exact hzero

/-- C1 (amended): when every report fed to `TokenTracker.update`
satisfies `input_tokens ≥ cache_creation + cache_read` and, within each
turn, any two reports have comparable `(input, cache_creation,
cache_read)` projections (one field-wise at most the other, as when
usage chunks are cumulative or disjoint by field), then every usage
value the tracker holds or returns — the current-turn accumulator, the
running total, `get_usage`, and every non-`none` `finalize_turn`
return — satisfies `input_tokens ≥ cache_creation_input_tokens +
cache_read_input_tokens`. -/
theorem token_containment (ops : List TokenOp)
    (hrep : ∀ r ∈ opReports ops, r.Containment)
    (hsegs : ∀ seg ∈ turnSegments ops, List.Pairwise UsageReport.Comparable seg) :
    (TokenTracker.run {} ops).1.current_turn.Containment ∧
    (TokenTracker.run {} ops).1.total.Containment ∧
    (TokenTracker.run {} ops).1.get_usage.Containment ∧
    (∀ u ∈ (TokenTracker.run {} ops).2.filterMap id, u.Containment) := by
  have h := run_containment_aux ops {} hrep hsegs
    (by simp [TokenUsageInfo.Containment])
    (by simp [TokenUsageInfo.Containment])
    (fun q _ => Or.inl ⟨Nat.zero_le _, Nat.zero_le _, Nat.zero_le _⟩)
    (fun _ => rfl)
  refine ⟨h.1, h.2.1, ?_, h.2.2⟩
  simp only [TokenTracker.get_usage]
  split
  · exact h.2.1.add h.1
  · exact h.2.1

/-- Witness for `token_containment` at a concrete two-turn sequence. -/
theorem token_containment_witness :
    (TokenTracker.run {} [TokenOp.update (some ⟨10, 1, 3, 5⟩),
        TokenOp.finalize,
        TokenOp.update (some ⟨20, 2, 6, 7⟩)]).1.current_turn.Containment ∧
    (TokenTracker.run {} [TokenOp.update (some ⟨10, 1, 3, 5⟩),
        TokenOp.finalize,
        TokenOp.update (some ⟨20, 2, 6, 7⟩)]).1.total.Containment ∧
    (TokenTracker.run {} [TokenOp.update (some ⟨10, 1, 3, 5⟩),
        TokenOp.finalize,
        TokenOp.update (some ⟨20, 2, 6, 7⟩)]).1.get_usage.Containment ∧
    TokenUsageInfo.Containment ⟨10, 1, 11, 3, 5⟩ := by
  have h := token_containment
    [TokenOp.update (some ⟨10, 1, 3, 5⟩), TokenOp.finalize,
     TokenOp.update (some ⟨20, 2, 6, 7⟩)] (by decide) (by decide)
  exact ⟨h.1, h.2.1, h.2.2.1, h.2.2.2 ⟨10, 1, 11, 3, 5⟩ (by decide)⟩

/-- C1 counterexample: two reports that each satisfy the containment
contract but have incomparable cache fields (all `cache_creation` in
one, all `cache_read` in the other) drive the current-turn accumulator
to `input_tokens = 10` with `cache_creation + cache_read = 20`,
violating containment. -/
theorem token_containment_cex :
    (∀ r ∈ opReports [TokenOp.update (some ⟨10, 1, 10, 0⟩),
        TokenOp.update (some ⟨10, 1, 0, 10⟩)], r.Containment) ∧
    ¬ (TokenTracker.run {} [TokenOp.update (some ⟨10, 1, 10, 0⟩),
        TokenOp.update (some ⟨10, 1, 0, 10⟩)]).1.current_turn.Containment := by
  decide

/-! ## Tool-call tracking (`stream/tracker.py`) -/

/-- `ToolCallInfo` dataclass.  The Python `Dict` of arguments is
modelled as an association list (`{}` is `[]`); `json_buffer` models
the `_json_buffer` field. -/
structure ToolCallInfo where
  id : String
  name : String
  args : List (String × String) := []
  emitted : Bool := false
  args_complete : Bool := false
  json_buffer : String := ""
deriving Repr, DecidableEq

/-- The arguments of one `ToolCallTracker.update` call, with Python's
defaults (`name=None`, `args=None`, `args_complete=False`). -/
structure ToolCallUpd where
  tool_id : String
  name : Option String := none
  args : Option (List (String × String)) := none
  args_complete : Bool := false
deriving Repr, DecidableEq

/-- Python truthiness of the optional `name` (`if name:`): `None` and
the empty string are falsy. -/
def truthyName : Option String → Bool
  | none => false
  | some s => s ≠ ""

/-- Python truthiness of the optional `args` (`if args:`): `None` and
the empty dict are falsy. -/
def truthyArgs : Option (List (String × String)) → Bool
  | none => false
  | some l => l ≠ []

/-- `ToolCallTracker` state: the insertion-ordered `_calls` dict
(modelled as a list of records, unique by id) and `_last_tool_id`. -/
structure ToolCallTracker where
  calls : List ToolCallInfo := []
  last_tool_id : Option String := none
deriving Repr, DecidableEq

/-- `ToolCallTracker.update`: on first sight of the id, append a fresh
record (with `name or ""`, `args or {}`) and retarget `_last_tool_id`;
otherwise merge in place — a truthy `name`/`args` overwrites, and
`args_complete` is only ever raised to `True`, never reset. -/
def ToolCallTracker.update (t : ToolCallTracker) (u : ToolCallUpd) :
    ToolCallTracker :=
  if t.calls.any fun c => c.id == u.tool_id then
    { t with calls := t.calls.map fun c =>
        if c.id == u.tool_id then
          { c with
            name := if truthyName u.name then u.name.getD "" else c.name
            args := if truthyArgs u.args then u.args.getD [] else c.args
            args_complete := c.args_complete || u.args_complete }
        else c }
  else
    { calls := t.calls ++
        [{ id := u.tool_id, name := u.name.getD "", args := u.args.getD [],
           args_complete := u.args_complete }]
      last_tool_id := some u.tool_id }

/-- `ToolCallTracker.append_json_delta`: append the raw fragment to the
buffer of the most recently registered call (deltas carry no id in the
upstream protocol); a falsy or unknown `_last_tool_id` makes it a
no-op.  The unused `index` parameter of the source is omitted. -/
def ToolCallTracker.append_json_delta (t : ToolCallTracker)
    (fragment : String) : ToolCallTracker :=
  match t.last_tool_id with
  | none => t
  | some tool_id =>
    if tool_id ≠ "" ∧ (t.calls.any fun c => c.id == tool_id) then
      { t with calls := t.calls.map fun c =>
          if c.id == tool_id then
            { c with json_buffer := c.json_buffer ++ fragment }
          else c }
    else t

/-- The per-call body of `finalize_all`, parameterized by the JSON
parser (`json.loads`, with `JSONDecodeError` modelled as `none`): a
non-empty buffer is parsed into `args` on success (prior args kept on
failure) and cleared either way; `args_complete` is set unconditionally
(distributed here into the three branches). -/
def finalizeInfo (parse : String → Option (List (String × String)))
    (c : ToolCallInfo) : ToolCallInfo :=
  if c.json_buffer ≠ "" then
    match parse c.json_buffer with
    | some v => { c with args := v, json_buffer := "", args_complete := true }
    | none => { c with json_buffer := "", args_complete := true }
  else { c with args_complete := true }

/-- `ToolCallTracker.finalize_all`: apply `finalizeInfo` to every
tracked call.  A total function: parse failures are absorbed, never
raised. -/
def ToolCallTracker.finalize_all
    (parse : String → Option (List (String × String)))
    (t : ToolCallTracker) : ToolCallTracker :=
  { t with calls := t.calls.map (finalizeInfo parse) }

theorem finalizeInfo_id (parse : String → Option (List (String × String)))
    (c : ToolCallInfo) : (finalizeInfo parse c).id = c.id := by
  unfold finalizeInfo
  split
  · cases parse c.json_buffer <;> rfl
  · rfl

/-- `find?` by id commutes with mapping an id-preserving function. -/
theorem find_map_id_preserving {f : ToolCallInfo → ToolCallInfo}
    (hf : ∀ c, (f c).id = c.id) (l : List ToolCallInfo) (cid : String) :
    (l.map f).find? (fun c => c.id == cid)
      = (l.find? (fun c => c.id == cid)).map f := by
  induction l with
  | nil => simp
  | cons c l ih =>
    have hc : ((f c).id == cid) = (c.id == cid) := by rw [hf c]
    rcases hb : (c.id == cid) with _ | _
    · simp only [List.map_cons, List.find?_cons, hc, hb, ih]
    · simp only [List.map_cons, List.find?_cons, hc, hb]
      rfl

/-- C9: `finalize_all` never raises — it is total for every parser
behavior — and for every tracked call it leaves the JSON buffer empty,
sets `args_complete`, and sets `args` to the parsed value of a
non-empty parseable buffer, keeping the previously stored `args`
otherwise (parse failure or empty buffer). -/
theorem finalize_all_graceful
    (parse : String → Option (List (String × String)))
    (t : ToolCallTracker) (cid : String) (c : ToolCallInfo)
    (hfind : t.calls.find? (fun x => x.id == cid) = some c) :
    ∃ c', (ToolCallTracker.finalize_all parse t).calls.find?
        (fun x => x.id == cid) = some c' ∧
      c'.json_buffer = "" ∧ c'.args_complete = true ∧
      c'.args = (if c.json_buffer ≠ ""
        then (parse c.json_buffer).getD c.args else c.args) := by
  refine ⟨finalizeInfo parse c, ?_, ?_, ?_, ?_⟩
  · simp only [ToolCallTracker.finalize_all]
    rw [find_map_id_preserving (finalizeInfo_id parse), hfind]
    rfl
  · unfold finalizeInfo
    split
    · cases parse c.json_buffer <;> rfl
    · rename_i h
      simpa using h
  · unfold finalizeInfo
    split
    · cases parse c.json_buffer <;> rfl
    · rfl
  · unfold finalizeInfo
    split
    · cases parse c.json_buffer <;> rfl
    · rfl

/-- Witness for `finalize_all_graceful`: one tracked call with an
unparseable buffer ends with an empty buffer, `args_complete` set, and
its previous args kept. -/
theorem finalize_all_graceful_witness :
    ((ToolCallTracker.finalize_all (fun _ => none)
        { calls := [{ id := "a", name := "bash", args := [("k", "v")],
                      json_buffer := "notjson" }]
          last_tool_id := some "a" }).calls.find?
        (fun x => x.id == "a")).map
        (fun c => (c.json_buffer, c.args_complete, c.args))
      = some ("", true, [("k", "v")]) := by
  have h := finalize_all_graceful (fun _ => none)
    { calls := [{ id := "a", name := "bash", args := [("k", "v")],
                  json_buffer := "notjson" }]
      last_tool_id := some "a" } "a"
    { id := "a", name := "bash", args := [("k", "v")],
      json_buffer := "notjson" } (by decide)
  obtain ⟨c', hf, hb, hac, hargs⟩ := h
  rw [hf, Option.map_some', hb, hac, hargs]
  decide

/-- One mutating operation on a `ToolCallTracker` (the JSON parser is
fixed for the whole run). -/
inductive TrackerOp where
  | update (u : ToolCallUpd)
  | append (fragment : String)
  | finalize
deriving Repr, DecidableEq

/-- Whether an operation is an `append_json_delta`. -/
def TrackerOp.isAppend : TrackerOp → Bool
  | .append _ => true
  | _ => false

/-- Apply one operation. -/
def ToolCallTracker.stepOp (parse : String → Option (List (String × String)))
    (t : ToolCallTracker) : TrackerOp → ToolCallTracker
  | .update u => t.update u
  | .append s => t.append_json_delta s
  | .finalize => t.finalize_all parse

/-- Run a sequence of operations. -/
def ToolCallTracker.runOps (parse : String → Option (List (String × String)))
    (t : ToolCallTracker) (ops : List TrackerOp) : ToolCallTracker :=
  ops.foldl (ToolCallTracker.stepOp parse) t

theorem find_append_left {α : Type} (p : α → Bool) (l l' : List α) (c : α)
    (h : l.find? p = some c) : (l ++ l').find? p = some c := by
  rw [List.find?_append, h]
  rfl

/-- C4 (amended): once a call's `args_complete` flag is true and its
JSON buffer is empty (the state `finalize_all` leaves a call in), no
subsequent `update` or `finalize_all` operation changes that call's
buffer — only `append_json_delta` can mutate it after that point. -/
theorem finalized_buffer_immutable
    (parse : String → Option (List (String × String)))
    (ops : List TrackerOp)
    (hops : ∀ op ∈ ops, op.isAppend = false)
    (t : ToolCallTracker) (cid : String) (c : ToolCallInfo)
    (hfind : t.calls.find? (fun x => x.id == cid) = some c)
    (hbuf : c.json_buffer = "") (hac : c.args_complete = true) :
    ∃ c', (ToolCallTracker.runOps parse t ops).calls.find?
        (fun x => x.id == cid) = some c' ∧
      c'.json_buffer = "" ∧ c'.args_complete = true := by
  induction ops generalizing t c with
  | nil => exact ⟨c, hfind, hbuf, hac⟩
  | cons op ops ih =>
    have hops' : ∀ o ∈ ops, o.isAppend = false :=
      fun o ho => hops o (List.mem_cons_of_mem _ ho)
    match op with
    | .update u =>
      simp only [ToolCallTracker.runOps, List.foldl_cons, ToolCallTracker.stepOp]
      by_cases h : t.calls.any fun x => x.id == u.tool_id
      · simp only [ToolCallTracker.update, if_pos h]
        set f : ToolCallInfo → ToolCallInfo := fun x =>
          if x.id == u.tool_id then
            { x with
              name := if truthyName u.name then u.name.getD "" else x.name
              args := if truthyArgs u.args then u.args.getD [] else x.args
              args_complete := x.args_complete || u.args_complete }
          else x with hfdef
        have hfid : ∀ x, (f x).id = x.id := by
          intro x; rw [hfdef]; dsimp only; split <;> rfl
        refine ih hops' _ (f c) ?_ ?_ ?_
        · show (t.calls.map f).find? (fun x => x.id == cid) = some (f c)
          rw [find_map_id_preserving hfid, hfind]
          rfl
        · rw [hfdef]; dsimp only; split <;> simp [hbuf]
        · rw [hfdef]; dsimp only; split <;> simp [hac]
      · simp only [ToolCallTracker.update, if_neg h]
        exact ih hops' _ c (find_append_left _ _ _ _ hfind) hbuf hac
    | .append s =>
      exact absurd (hops (TrackerOp.append s) (List.mem_cons_self _ _))
        (by simp [TrackerOp.isAppend])
    | .finalize =>
      simp only [ToolCallTracker.runOps, List.foldl_cons, ToolCallTracker.stepOp,
        ToolCallTracker.finalize_all]
      refine ih hops' _ (finalizeInfo parse c) ?_ ?_ ?_
      · show (t.calls.map (finalizeInfo parse)).find? (fun x => x.id == cid)
          = some (finalizeInfo parse c)
        rw [find_map_id_preserving (finalizeInfo_id parse), hfind]
        rfl
      · unfold finalizeInfo
        rw [if_neg (by simp [hbuf])]
        exact hbuf
      · unfold finalizeInfo
        rw [if_neg (by simp [hbuf])]

/-- Witness for `finalized_buffer_immutable`: a finalized call survives
a further `update` and `finalize_all` with an empty buffer. -/
theorem finalized_buffer_immutable_witness :
    (((ToolCallTracker.runOps (fun _ => none)
        { calls := [{ id := "a", name := "bash", args_complete := true }]
          last_tool_id := some "a" }
        [TrackerOp.update { tool_id := "a", name := some "grep" },
         TrackerOp.finalize]).calls.find?
        (fun x => x.id == "a")).map
        (fun c => (c.json_buffer, c.args_complete)))
      = some ("", true) := by
  have h := finalized_buffer_immutable (fun _ => none)
    [TrackerOp.update { tool_id := "a", name := some "grep" },
     TrackerOp.finalize] (by decide)
    { calls := [{ id := "a", name := "bash", args_complete := true }]
      last_tool_id := some "a" } "a"
    { id := "a", name := "bash", args_complete := true }
    (by decide) rfl rfl
  obtain ⟨c', hf, hb, hac⟩ := h
  rw [hf, Option.map_some', hb, hac]

/-- C4 counterexample: `update` registers call `"a"` with
`args_complete = True` and an empty buffer, yet a following
`append_json_delta` (routed through `_last_tool_id`) mutates that
call's buffer to `"frag"`, so a finalized call's buffer is not
immutable under arbitrary subsequent operations. -/
theorem finalized_buffer_cex :
    (((ToolCallTracker.runOps (fun _ => none) {}
        [TrackerOp.update { tool_id := "a", name := some "bash",
                            args_complete := true }]).calls.find?
        (fun x => x.id == "a")).map (fun x => (x.args_complete, x.json_buffer))
      = some (true, "")) ∧
    (((ToolCallTracker.runOps (fun _ => none) {}
        [TrackerOp.update { tool_id := "a", name := some "bash",
                            args_complete := true },
         TrackerOp.append "frag"]).calls.find?
        (fun x => x.id == "a")).map (fun x => x.json_buffer)
      = some "frag") := by
  decide

/-! ### Deduplication by id -/

/-- Apply a sequence of `update` calls to a fresh tracker. -/
def runUpdates (us : List ToolCallUpd) : ToolCallTracker :=
  us.foldl ToolCallTracker.update {}

/-- First-occurrence deduplication of a list of ids. -/
def dedupFirst (l : List String) : List String :=
  l.foldl (fun acc x => if x ∈ acc then acc else acc ++ [x]) []

/-- The last truthy `name` passed for the given id, if any. -/
def lastTruthyName (us : List ToolCallUpd) (cid : String) : Option String :=
  ((us.filter fun u => u.tool_id == cid && truthyName u.name).getLast?).map
    fun u => u.name.getD ""

/-- The last truthy `args` passed for the given id, if any. -/
def lastTruthyArgs (us : List ToolCallUpd) (cid : String) :
    Option (List (String × String)) :=
  ((us.filter fun u => u.tool_id == cid && truthyArgs u.args).getLast?).map
    fun u => u.args.getD []

theorem any_id_iff_mem (l : List ToolCallInfo) (s : String) :
    (l.any fun c => c.id == s) = true ↔ s ∈ l.map fun c => c.id := by
  simp only [List.any_eq_true, List.mem_map, beq_iff_eq]

theorem update_ids (t : ToolCallTracker) (u : ToolCallUpd) :
    (t.update u).calls.map (fun c => c.id)
      = if u.tool_id ∈ (t.calls.map fun c => c.id)
        then t.calls.map fun c => c.id
        else (t.calls.map fun c => c.id) ++ [u.tool_id] := by
  by_cases h : (t.calls.any fun c => c.id == u.tool_id) = true
  · rw [if_pos ((any_id_iff_mem _ _).mp h)]
    unfold ToolCallTracker.update
    rw [if_pos h]
    dsimp only
    rw [List.map_map]
    apply List.map_congr_left
    intro c _
    dsimp only [Function.comp]
    split <;> rfl
  · rw [if_neg (fun hm => h ((any_id_iff_mem _ _).mpr hm))]
    unfold ToolCallTracker.update
    rw [if_neg h]
    simp

theorem foldl_update_ids (us : List ToolCallUpd) (t : ToolCallTracker) :
    (us.foldl ToolCallTracker.update t).calls.map (fun c => c.id)
      = us.foldl
          (fun acc u => if u.tool_id ∈ acc then acc else acc ++ [u.tool_id])
          (t.calls.map fun c => c.id) := by
  induction us generalizing t with
  | nil => rfl
  | cons u us ih =>
    simp only [List.foldl_cons]
    rw [ih, update_ids]

/-- The ids held by the tracker are the event ids deduplicated to their
first occurrences, in order. -/
theorem runUpdates_ids (us : List ToolCallUpd) :
    (runUpdates us).calls.map (fun c => c.id)
      = dedupFirst (us.map fun u => u.tool_id) := by
  unfold runUpdates dedupFirst
  rw [foldl_update_ids, List.foldl_map]
  rfl

theorem mem_foldl_dedup (l : List String) (acc : List String) (x : String) :
    (x ∈ l.foldl (fun acc y => if y ∈ acc then acc else acc ++ [y]) acc)
      ↔ x ∈ acc ∨ x ∈ l := by
  induction l generalizing acc with
  | nil => simp
  | cons y l ih =>
    simp only [List.foldl_cons]
    rw [ih]
    by_cases h : y ∈ acc
    · rw [if_pos h]
      simp only [List.mem_cons]
      constructor
      · rintro (hx | hx)
        · exact Or.inl hx
        · exact Or.inr (Or.inr hx)
      · rintro (hx | rfl | hx)
        · exact Or.inl hx
        · exact Or.inl h
        · exact Or.inr hx
    · rw [if_neg h]
      simp only [List.mem_append, List.mem_singleton, List.mem_cons]
      tauto

theorem mem_dedupFirst (l : List String) (x : String) :
    x ∈ dedupFirst l ↔ x ∈ l := by
  unfold dedupFirst
  rw [mem_foldl_dedup]
  simp

theorem nodup_foldl_dedup (l : List String) (acc : List String)
    (h : acc.Nodup) :
    (l.foldl (fun acc y => if y ∈ acc then acc else acc ++ [y]) acc).Nodup := by
  induction l generalizing acc with
  | nil => exact h
  | cons y l ih =>
    simp only [List.foldl_cons]
    by_cases hy : y ∈ acc
    · rw [if_pos hy]; exact ih acc h
    · rw [if_neg hy]
      refine ih _ ?_
      simp [List.nodup_append, h, hy]

theorem nodup_dedupFirst (l : List String) : (dedupFirst l).Nodup :=
  nodup_foldl_dedup l [] List.nodup_nil

theorem filter_id_nil (l : List ToolCallInfo) (cid : String)
    (hm : cid ∉ l.map fun c => c.id) :
    (l.filter fun c => c.id == cid) = [] := by
  induction l with
  | nil => rfl
  | cons c l ih =>
    simp only [List.map_cons, List.mem_cons, not_or] at hm
    have hc : (c.id == cid) = false := by
      simp only [beq_eq_false_iff_ne, ne_eq]
      exact fun he => hm.1 he.symm
    simp [List.filter_cons, hc, ih hm.2]

theorem filter_id_length_one (l : List ToolCallInfo) (cid : String)
    (hnd : (l.map fun c => c.id).Nodup) (hm : cid ∈ l.map fun c => c.id) :
    (l.filter fun c => c.id == cid).length = 1 := by
  induction l with
  | nil => simp at hm
  | cons c l ih =>
    simp only [List.map_cons, List.nodup_cons] at hnd
    by_cases hc : c.id = cid
    · have hnm : cid ∉ l.map fun c => c.id := hc ▸ hnd.1
      simp [List.filter_cons, hc, filter_id_nil l cid hnm]
    · have hcb : (c.id == cid) = false := by
        simp only [beq_eq_false_iff_ne, ne_eq]; exact hc
      have hm' : cid ∈ l.map fun c => c.id := by
        rcases List.mem_cons.mp hm with he | hmem
        · exact absurd he.symm hc
        · exact hmem
      simp [List.filter_cons, hcb, ih hnd.2 hm']

theorem find_id_some_of_mem (l : List ToolCallInfo) (cid : String)
    (hm : cid ∈ l.map fun c => c.id) :
    ∃ c, l.find? (fun c => c.id == cid) = some c ∧ c.id = cid := by
  induction l with
  | nil => simp at hm
  | cons c l ih =>
    by_cases hc : c.id = cid
    · exact ⟨c, List.find?_cons_of_pos _ (by simp [hc]), hc⟩
    · have hm' : cid ∈ l.map fun c => c.id := by
        rcases List.mem_cons.mp hm with he | hmem
        · exact absurd he.symm hc
        · exact hmem
      obtain ⟨c₀, hf, hcid⟩ := ih hm'
      exact ⟨c₀, by rw [List.find?_cons_of_neg _ (by simp [hc])]; exact hf, hcid⟩

theorem find_id_none_of_not_mem (l : List ToolCallInfo) (cid : String)
    (hm : cid ∉ l.map fun c => c.id) :
    l.find? (fun c => c.id == cid) = none := by
  rw [List.find?_eq_none]
  intro x hx h
  apply hm
  rw [List.mem_map]
  exact ⟨x, hx, by simpa using h⟩

theorem find_update_ne (t : ToolCallTracker) (u : ToolCallUpd) (cid : String)
    (hne : u.tool_id ≠ cid) :
    (t.update u).calls.find? (fun c => c.id == cid)
      = t.calls.find? (fun c => c.id == cid) := by
  unfold ToolCallTracker.update
  by_cases h : (t.calls.any fun c => c.id == u.tool_id) = true
  · rw [if_pos h]
    dsimp only
    rw [find_map_id_preserving (by intro x; split <;> rfl)]
    rcases hf : t.calls.find? (fun c => c.id == cid) with _ | c
    · rw [hf]
      rfl
    · rw [hf, Option.map_some']
      have hcid : c.id = cid := by simpa using List.find?_some hf
      have hfc : ¬ ((c.id == u.tool_id) = true) := by
        simp only [beq_iff_eq, hcid]
        exact fun he => hne he.symm
      rw [if_neg hfc]
  · rw [if_neg h]
    dsimp only
    rw [List.find?_append,
      find_id_none_of_not_mem [_] cid (by simp; exact fun he => hne he.symm)]
    rcases hfo : t.calls.find? (fun c => c.id == cid) with _ | c <;>
      rw [hfo] <;> rfl

theorem find_update_eq_present (t : ToolCallTracker) (u : ToolCallUpd)
    (cid : String) (hid : u.tool_id = cid) (c : ToolCallInfo)
    (hf : t.calls.find? (fun c => c.id == cid) = some c) :
    (t.update u).calls.find? (fun c => c.id == cid)
      = some { c with
          name := if truthyName u.name then u.name.getD "" else c.name
          args := if truthyArgs u.args then u.args.getD [] else c.args
          args_complete := c.args_complete || u.args_complete } := by
  have hcid : c.id = cid := by simpa using List.find?_some hf
  have hmem : cid ∈ t.calls.map fun c => c.id := by
    rw [List.mem_map]
    exact ⟨c, List.mem_of_find?_eq_some hf, hcid⟩
  unfold ToolCallTracker.update
  rw [if_pos (by rw [any_id_iff_mem, hid]; exact hmem)]
  dsimp only
  rw [find_map_id_preserving (by intro x; split <;> rfl), hf]
  simp only [Option.map_some']
  rw [if_pos (by simp [hcid, hid])]

theorem find_update_eq_absent (t : ToolCallTracker) (u : ToolCallUpd)
    (cid : String) (hid : u.tool_id = cid)
    (hm : cid ∉ t.calls.map fun c => c.id) :
    (t.update u).calls.find? (fun c => c.id == cid)
      = some { id := u.tool_id, name := u.name.getD "",
               args := u.args.getD [], args_complete := u.args_complete } := by
  unfold ToolCallTracker.update
  rw [if_neg (fun ha => hm (hid ▸ (any_id_iff_mem _ _).mp ha))]
  dsimp only
  rw [List.find?_append, find_id_none_of_not_mem _ _ hm]
  simp [List.find?_cons_of_pos, hid]

theorem filter_eq_nil_of_idpred (us : List ToolCallUpd) (cid : String)
    (q : ToolCallUpd → Bool) (hq : ∀ u, q u = true → u.tool_id = cid)
    (hm : cid ∉ us.map fun u => u.tool_id) :
    us.filter q = [] := by
  induction us with
  | nil => rfl
  | cons u us ih =>
    simp only [List.map_cons, List.mem_cons, not_or] at hm
    have hqu : q u = false := by
      cases hqv : q u
      · rfl
      · exact absurd (hq u hqv).symm hm.1
    simp [List.filter_cons, hqu, ih hm.2]

theorem lastTruthyName_none (us : List ToolCallUpd) (cid : String)
    (hm : cid ∉ us.map fun u => u.tool_id) :
    lastTruthyName us cid = none := by
  unfold lastTruthyName
  rw [filter_eq_nil_of_idpred us cid _
    (fun u h => by simp only [Bool.and_eq_true, beq_iff_eq] at h; exact h.1) hm]
  rfl

theorem lastTruthyArgs_none (us : List ToolCallUpd) (cid : String)
    (hm : cid ∉ us.map fun u => u.tool_id) :
    lastTruthyArgs us cid = none := by
  unfold lastTruthyArgs
  rw [filter_eq_nil_of_idpred us cid _
    (fun u h => by simp only [Bool.and_eq_true, beq_iff_eq] at h; exact h.1) hm]
  rfl

theorem lastTruthyName_concat_pass (us : List ToolCallUpd) (u : ToolCallUpd)
    (cid : String) (hid : u.tool_id = cid) (hn : truthyName u.name = true) :
    lastTruthyName (us ++ [u]) cid = some (u.name.getD "") := by
  unfold lastTruthyName
  rw [List.filter_append]
  have hp : (u.tool_id == cid && truthyName u.name) = true := by simp [hid, hn]
  simp [List.filter_cons, hp, List.getLast?_concat]

theorem lastTruthyName_concat_fail (us : List ToolCallUpd) (u : ToolCallUpd)
    (cid : String) (hp : (u.tool_id == cid && truthyName u.name) = false) :
    lastTruthyName (us ++ [u]) cid = lastTruthyName us cid := by
  unfold lastTruthyName
  rw [List.filter_append]
  simp [List.filter_cons, hp]

theorem lastTruthyArgs_concat_pass (us : List ToolCallUpd) (u : ToolCallUpd)
    (cid : String) (hid : u.tool_id = cid) (ha : truthyArgs u.args = true) :
    lastTruthyArgs (us ++ [u]) cid = some (u.args.getD []) := by
  unfold lastTruthyArgs
  rw [List.filter_append]
  have hp : (u.tool_id == cid && truthyArgs u.args) = true := by simp [hid, ha]
  simp [List.filter_cons, hp, List.getLast?_concat]

theorem lastTruthyArgs_concat_fail (us : List ToolCallUpd) (u : ToolCallUpd)
    (cid : String) (hp : (u.tool_id == cid && truthyArgs u.args) = false) :
    lastTruthyArgs (us ++ [u]) cid = lastTruthyArgs us cid := by
  unfold lastTruthyArgs
  rw [List.filter_append]
  simp [List.filter_cons, hp]

theorem runUpdates_concat (us : List ToolCallUpd) (u : ToolCallUpd) :
    runUpdates (us ++ [u]) = (runUpdates us).update u := by
  simp [runUpdates, List.foldl_append]

theorem runUpdates_name_args (us : List ToolCallUpd) (cid : String) :
    ∀ c, (runUpdates us).calls.find? (fun c => c.id == cid) = some c →
      (∀ n, lastTruthyName us cid = some n → c.name = n) ∧
      (∀ a, lastTruthyArgs us cid = some a → c.args = a) := by
  induction us using List.reverseRecOn with
  | nil => intro c hc; simp [runUpdates] at hc
  | append_singleton us u ih =>
    intro c hc
    rw [runUpdates_concat] at hc
    by_cases hid : u.tool_id = cid
    · by_cases hm : cid ∈ (runUpdates us).calls.map fun c => c.id
      · obtain ⟨c₀, hf₀, hcid₀⟩ := find_id_some_of_mem _ _ hm
        rw [find_update_eq_present _ _ _ hid c₀ hf₀] at hc
        have hceq := (Option.some.inj hc).symm
        subst hceq
        constructor
        · intro n hn
          by_cases htn : truthyName u.name = true
          · rw [lastTruthyName_concat_pass us u cid hid htn] at hn
            have := Option.some.inj hn
            simp [htn, this]
          · rw [lastTruthyName_concat_fail us u cid
              (by simp [Bool.eq_false_iff.mpr htn])] at hn
            have := (ih c₀ hf₀).1 n hn
            simp [htn, this]
        · intro a ha
          by_cases hta : truthyArgs u.args = true
          · rw [lastTruthyArgs_concat_pass us u cid hid hta] at ha
            have := Option.some.inj ha
            simp [hta, this]
          · rw [lastTruthyArgs_concat_fail us u cid
              (by simp [Bool.eq_false_iff.mpr hta])] at ha
            have := (ih c₀ hf₀).2 a ha
            simp [hta, this]
      · rw [find_update_eq_absent _ _ _ hid hm] at hc
        have hceq := (Option.some.inj hc).symm
        subst hceq
        have husmem : cid ∉ us.map fun u => u.tool_id := by
          intro hmem
          apply hm
          rw [runUpdates_ids, mem_dedupFirst]
          exact hmem
        constructor
        · intro n hn
          by_cases htn : truthyName u.name = true
          · rw [lastTruthyName_concat_pass us u cid hid htn] at hn
            exact (Option.some.inj hn).symm ▸ rfl
          · rw [lastTruthyName_concat_fail us u cid
              (by simp [Bool.eq_false_iff.mpr htn]),
              lastTruthyName_none us cid husmem] at hn
            exact absurd hn (by simp)
        · intro a ha
          by_cases hta : truthyArgs u.args = true
          · rw [lastTruthyArgs_concat_pass us u cid hid hta] at ha
            exact (Option.some.inj ha).symm ▸ rfl
          · rw [lastTruthyArgs_concat_fail us u cid
              (by simp [Bool.eq_false_iff.mpr hta]),
              lastTruthyArgs_none us cid husmem] at ha
            exact absurd ha (by simp)
    · rw [find_update_ne _ _ _ hid] at hc
      have hprev := ih c hc
      have hfn : (u.tool_id == cid && truthyName u.name) = false := by
        simp [hid]
      have hfa : (u.tool_id == cid && truthyArgs u.args) = false := by
        simp [hid]
      constructor
      · intro n hn
        rw [lastTruthyName_concat_fail us u cid hfn] at hn
        exact hprev.1 n hn
      · intro a ha
        rw [lastTruthyArgs_concat_fail us u cid hfa] at ha
        exact hprev.2 a ha

/-- C3: for every sequence of `update` calls and every non-empty id
occurring in it, the tracker afterwards holds exactly one record for
that id; the tracker's ids are the sequence's ids deduplicated to their
first occurrences in order (so the record sits at the position of the
id's first occurrence); and the record's `name`/`args` equal the last
non-empty (truthy) name and args seen for that id. -/
theorem tool_call_dedup (us : List ToolCallUpd) (cid : String)
    (hid : cid ≠ "") (hmem : cid ∈ us.map fun u => u.tool_id) :
    ∃ c, (runUpdates us).calls.find? (fun c => c.id == cid) = some c ∧
      ((runUpdates us).calls.filter fun c => c.id == cid).length = 1 ∧
      ((runUpdates us).calls.map fun c => c.id)
        = dedupFirst (us.map fun u => u.tool_id) ∧
      (∀ n, lastTruthyName us cid = some n → c.name = n) ∧
      (∀ a, lastTruthyArgs us cid = some a → c.args = a) := by
  have hids := runUpdates_ids us
  have hm' : cid ∈ (runUpdates us).calls.map fun c => c.id := by
    rw [hids, mem_dedupFirst]
    exact hmem
  obtain ⟨c, hf, hcid⟩ := find_id_some_of_mem _ _ hm'
  have hnd : ((runUpdates us).calls.map fun c => c.id).Nodup := by
    rw [hids]
    exact nodup_dedupFirst _
  exact ⟨c, hf, filter_id_length_one _ _ hnd hm', hids,
    (runUpdates_name_args us cid c hf).1, (runUpdates_name_args us cid c hf).2⟩

/-- Witness for `tool_call_dedup`: id `"a"` is updated twice around an
update for `"b"`; the record keeps its first truthy name and takes the
last truthy args, and the id order is first-occurrence order. -/
theorem tool_call_dedup_witness :
    ((runUpdates
        [{ tool_id := "a", name := some "bash" },
         { tool_id := "b", name := some "grep" },
         { tool_id := "a", args := some [("cmd", "ls")],
           args_complete := true }]).calls.find?
        (fun c => c.id == "a")).map (fun c => (c.name, c.args))
      = some ("bash", [("cmd", "ls")]) ∧
    ((runUpdates
        [{ tool_id := "a", name := some "bash" },
         { tool_id := "b", name := some "grep" },
         { tool_id := "a", args := some [("cmd", "ls")],
           args_complete := true }]).calls.filter
        fun c => c.id == "a").length = 1 ∧
    ((runUpdates
        [{ tool_id := "a", name := some "bash" },
         { tool_id := "b", name := some "grep" },
         { tool_id := "a", args := some [("cmd", "ls")],
           args_complete := true }]).calls.map fun c => c.id)
      = ["a", "b"] := by
  have h := tool_call_dedup
    [{ tool_id := "a", name := some "bash" },
     { tool_id := "b", name := some "grep" },
     { tool_id := "a", args := some [("cmd", "ls")], args_complete := true }]
    "a" (by decide) (by decide)
  obtain ⟨c, hf, hlen, hids, hname, hargs⟩ := h
  refine ⟨?_, hlen, hids.trans (by decide)⟩
  rw [hf, Option.map_some', hname "bash" (by decide),
    hargs [("cmd", "ls")] (by decide)]
/-! ## Session state aggregation (`cli.py`, `StreamState`) -/

/-- One record of `StreamState.tool_calls` (the `tc_data` dict). -/
structure ToolCallRec where
  id : String
  name : String
  args : List (String × String)
deriving Repr, DecidableEq

/-- One per-turn usage dict; `parallel_count` is present only when the
handler added the key. -/
structure TurnUsage where
  input_tokens : Nat
  output_tokens : Nat
  total_tokens : Nat
  cache_creation_input_tokens : Nat
  cache_read_input_tokens : Nat
  parallel_count : Option Nat
deriving Repr, DecidableEq

/-- A streaming event of one of the seven kinds.  Every payload field
is optional, modelling `event.get(key, default)` on the event dict. -/
inductive StreamEvent where
  | thinking (content : Option String)
  | text (content : Option String)
  | tool_call (id : Option String) (name : Option String)
      (args : Option (List (String × String)))
  | tool_result (name : Option String) (content : Option String)
  | done (response : Option String)
  | token_usage (input_tokens output_tokens total_tokens
      cache_creation_input_tokens cache_read_input_tokens : Option Nat)
      (is_total : Option Bool) (parallel_count : Option Nat)
  | error (message : Option String)
deriving Repr, DecidableEq

/-- `StreamState.__init__`: all accumulators empty, all flags false. -/
structure StreamState where
  thinking_text : String := ""
  response_text : String := ""
  tool_calls : List ToolCallRec := []
  tool_results : List (String × String) := []
  is_thinking : Bool := false
  is_responding : Bool := false
  is_processing : Bool := false
  token_usage : Option TurnUsage := none
  turn_token_usages : List (Option TurnUsage) := []
deriving Repr, DecidableEq

/-- The dedup loop of the `tool_call` branch: replace the first record
with the given id in place (returning `true`), leaving the list
unchanged (returning `false`) when the id is absent. -/
def upsertFirst (l : List ToolCallRec) (tool_id : String)
    (tc_data : ToolCallRec) : List ToolCallRec × Bool :=
  match l with
  | [] => ([], false)
  | tc :: rest =>
    if tc.id = tool_id then (tc_data :: rest, true)
    else
      let r := upsertFirst rest tool_id tc_data
      (tc :: r.1, r.2)

/-- `StreamState.handle_event` (cli.py lines 163-246), one event: the
seven branches updating flags, accumulated text, tool calls/results and
token usage.  The returned `event_type` string is omitted (it is the
event's tag). -/
def StreamState.handle_event (s : StreamState) (e : StreamEvent) :
    StreamState :=
  match e with
  | .thinking content =>
    { s with
      is_thinking := true
      is_responding := false
      is_processing := false
      thinking_text := s.thinking_text ++ content.getD "" }
  | .text content =>
    { s with
      is_thinking := false
      is_responding := true
      is_processing := false
      response_text := s.response_text ++ content.getD "" }
  | .tool_call id name args =>
    let tool_id := id.getD ""
    let tc_data : ToolCallRec :=
      { id := tool_id, name := name.getD "unknown", args := args.getD [] }
    let new_calls :=
      if tool_id ≠ "" then
        let r := upsertFirst s.tool_calls tool_id tc_data
        if r.2 then r.1 else s.tool_calls ++ [tc_data]
      else s.tool_calls ++ [tc_data]
    { s with
      is_thinking := false
      is_responding := false
      is_processing := false
      tool_calls := new_calls }
  | .tool_result name content =>
    { s with
      is_processing := true
      tool_results := s.tool_results ++ [(name.getD "unknown", content.getD "")] }
  | .done response =>
    let s := { s with is_processing := false }
    if s.response_text = "" then { s with response_text := response.getD "" }
    else s
  | .token_usage i o tt cc cr is_total pc =>
    let usage : TurnUsage :=
      { input_tokens := i.getD 0, output_tokens := o.getD 0
        total_tokens := tt.getD 0, cache_creation_input_tokens := cc.getD 0
        cache_read_input_tokens := cr.getD 0, parallel_count := none }
    let pcv := pc.getD 1
    if is_total.getD false then { s with token_usage := some usage }
    else
      let usage := if pcv > 1 then { usage with parallel_count := some pcv }
        else usage
      let turn :=
        if pcv > 1 then
          s.turn_token_usages ++ List.replicate
            ((s.tool_results.length - 1) - s.turn_token_usages.length) none
        else s.turn_token_usages
      if s.tool_results.length > turn.length then
        { s with turn_token_usages := turn ++ [some usage] }
      else { s with turn_token_usages := turn }
  | .error message =>
    { s with
      is_processing := false
      is_thinking := false
      is_responding := false
      response_text := s.response_text ++ "\n\n[Error] "
        ++ message.getD "Unknown error" }

/-- Fold a sequence of events into the state. -/
def StreamState.runEvents (s : StreamState) (es : List StreamEvent) :
    StreamState :=
  es.foldl StreamState.handle_event s

/-- At most one of the three activity flags is set. -/
def atMostOneActive (s : StreamState) : Prop :=
  ¬ (s.is_thinking = true ∧ s.is_responding = true) ∧
  ¬ (s.is_thinking = true ∧ s.is_processing = true) ∧
  ¬ (s.is_responding = true ∧ s.is_processing = true)

instance (s : StreamState) : Decidable (atMostOneActive s) :=
  inferInstanceAs (Decidable (_ ∧ _))

theorem handle_event_thinking_responding (s : StreamState) (e : StreamEvent)
    (h : s.is_thinking = false ∨ s.is_responding = false) :
    (s.handle_event e).is_thinking = false ∨
      (s.handle_event e).is_responding = false := by
  match e with
  | .thinking content => right; rfl
  | .text content => left; rfl
  | .tool_call id name args => left; rfl
  | .tool_result name content => exact h
  | .done response =>
    simp only [StreamState.handle_event]
    split <;> exact h
  | .token_usage i o tt cc cr is_total pc =>
    simp only [StreamState.handle_event]
    repeat' split
    all_goals exact h
  | .error message => left; rfl

/-- C2 (amended): starting from a fresh `StreamState`, after any
sequence of events at most one of `is_thinking` and `is_responding` is
true.  The original three-way exclusivity including `is_processing`
does not hold: a `tool_result` sets `is_processing` without clearing
the other two flags (see the counterexample). -/
theorem thinking_responding_exclusive (es : List StreamEvent) :
    (StreamState.runEvents {} es).is_thinking = false ∨
      (StreamState.runEvents {} es).is_responding = false := by
  suffices h : ∀ s : StreamState,
      s.is_thinking = false ∨ s.is_responding = false →
      (StreamState.runEvents s es).is_thinking = false ∨
        (StreamState.runEvents s es).is_responding = false from
    h {} (Or.inl rfl)
  induction es with
  | nil => exact fun s h => h
  | cons e es ih =>
    intro s h
    exact ih (s.handle_event e) (handle_event_thinking_responding s e h)

/-- C2 counterexample: from a fresh state, `thinking` followed by
`tool_result` leaves both `is_thinking` and `is_processing` true, so
the three activity flags are not mutually exclusive. -/
theorem flags_exclusivity_cex :
    ¬ atMostOneActive (StreamState.runEvents {}
      [StreamEvent.thinking (some "t"),
       StreamEvent.tool_result none none]) := by
  decide

/-- C10: a `tool_call` event whose id is absent or the empty string is
always appended as a fresh record (the dedup branch is skipped), so two
identical id-less events produce two entries. -/
theorem idless_tool_call_appends (s : StreamState) (i : Option String)
    (h : i.getD "" = "") (name : Option String)
    (args : Option (List (String × String))) :
    (s.handle_event (.tool_call i name args)).tool_calls
        = s.tool_calls
          ++ [{ id := "", name := name.getD "unknown", args := args.getD [] }] ∧
    ((s.handle_event (.tool_call i name args)).handle_event
        (.tool_call i name args)).tool_calls
        = s.tool_calls
          ++ [{ id := "", name := name.getD "unknown", args := args.getD [] },
              { id := "", name := name.getD "unknown", args := args.getD [] }] := by
  have h1 : ∀ s' : StreamState,
      (s'.handle_event (.tool_call i name args)).tool_calls
        = s'.tool_calls
          ++ [{ id := "", name := name.getD "unknown", args := args.getD [] }] := by
    intro s'
    simp only [StreamState.handle_event, h]
    rw [if_neg (by simp)]
  refine ⟨h1 s, ?_⟩
  rw [h1, h1 s, List.append_assoc]
  rfl

/-- Witness for `idless_tool_call_appends` at a concrete state and
event. -/
theorem idless_tool_call_appends_witness :
    (StreamState.handle_event {}
        (.tool_call none (some "bash") none)).tool_calls
        = [{ id := "", name := "bash", args := [] }] ∧
    ((StreamState.handle_event {}
        (.tool_call none (some "bash") none)).handle_event
        (.tool_call none (some "bash") none)).tool_calls
        = [{ id := "", name := "bash", args := [] },
           { id := "", name := "bash", args := [] }] := by
  have h := idless_tool_call_appends {} none rfl (some "bash") none
  simpa using h

/-! ## Layout allocation (`cli.py`, `compute_height_budget`) -/

/-- The dict returned by `compute_height_budget`. -/
structure HeightBudget where
  thinking : Int
  response : Int
  lines_per_tool : Int
deriving Repr, DecidableEq

/-- The fixed overhead lines (margins, panel borders, placeholder and
processing lines, one name line per tool and one spinner line per
pending tool). -/
def compute_fixed_overhead
    (has_thinking has_response has_response_placeholder : Bool)
    (num_tools num_results : Int) (show_processing : Bool) : Int :=
  let num_pending := max 0 (num_tools - num_results)
  let fixed : Int := 2
  let fixed := if has_thinking then fixed + 2 else fixed
  let fixed := if has_response then fixed + 2 else fixed
  let fixed := if has_response_placeholder then fixed + 1 else fixed
  let fixed := if show_processing then fixed + 1 else fixed
  fixed + num_tools + num_pending

/-- `content_budget = max(6, terminal_height - fixed)`; 6 is the hard
floor. -/
def compute_content_budget (terminal_height : Int)
    (has_thinking has_response has_response_placeholder : Bool)
    (num_tools num_results : Int) (show_processing : Bool) : Int :=
  max 6 (terminal_height - compute_fixed_overhead has_thinking has_response
    has_response_placeholder num_tools num_results show_processing)

/-- `compute_height_budget` (cli.py lines 62-136).  The allocation
triple is `(thinking_h, tool_result_budget, response_h)`; Python's
floor division `//` is `Int.fdiv`. -/
def compute_height_budget (terminal_height : Int)
    (has_thinking has_response has_response_placeholder : Bool)
    (num_tools num_results : Int) (show_processing : Bool) : HeightBudget :=
  let content_budget := compute_content_budget terminal_height has_thinking
    has_response has_response_placeholder num_tools num_results show_processing
  let alloc : Int × Int × Int :=
    if has_response then
      if has_thinking ∧ num_results > 0 then
        let response_h := max 3 (content_budget.fdiv 2)
        let rest := content_budget - response_h
        let thinking_h := max 2 (rest.fdiv 3)
        (thinking_h, rest - thinking_h, response_h)
      else if has_thinking then
        let response_h := max 3 ((content_budget * 2).fdiv 3)
        (max 2 (content_budget - response_h), 0, response_h)
      else if num_results > 0 then
        let response_h := max 3 ((content_budget * 3).fdiv 5)
        (0, content_budget - response_h, response_h)
      else (0, 0, content_budget)
    else if has_thinking ∧ num_results > 0 then
      let thinking_h := max 3 ((content_budget * 2).fdiv 5)
      (thinking_h, content_budget - thinking_h, 0)
    else if has_thinking then (content_budget, 0, 0)
    else if num_results > 0 then (0, content_budget, 0)
    else (0, 0, 0)
  let lines_per_tool :=
    if num_results > 0 ∧ alloc.2.1 > 0 then
      max 1 (alloc.2.1.fdiv num_results - 1)
    else 2
  { thinking := alloc.1, response := alloc.2.2,
    lines_per_tool := lines_per_tool }

/-- C7: for every terminal height (including arbitrarily small or
negative), every flag combination and all non-negative tool/result
counts, the returned `thinking` and `response` line budgets are
non-negative, `lines_per_tool` is at least 1, and the internal content
budget never drops below the hard floor of 6. -/
theorem height_budget_floors (terminal_height : Int)
    (has_thinking has_response has_response_placeholder show_processing : Bool)
    (num_tools num_results : Int)
    (h1 : 0 ≤ num_tools) (h2 : 0 ≤ num_results) :
    0 ≤ (compute_height_budget terminal_height has_thinking has_response
      has_response_placeholder num_tools num_results show_processing).thinking ∧
    0 ≤ (compute_height_budget terminal_height has_thinking has_response
      has_response_placeholder num_tools num_results show_processing).response ∧
    1 ≤ (compute_height_budget terminal_height has_thinking has_response
      has_response_placeholder num_tools num_results show_processing).lines_per_tool ∧
    6 ≤ compute_content_budget terminal_height has_thinking has_response
      has_response_placeholder num_tools num_results show_processing := by
  have hcb : (6 : Int) ≤ compute_content_budget terminal_height has_thinking
      has_response has_response_placeholder num_tools num_results
      show_processing := le_max_left _ _
  refine ⟨?_, ?_, ?_, hcb⟩ <;>
  · simp only [compute_height_budget]
    repeat' split
    all_goals try norm_num
    all_goals exact le_trans (by norm_num) (le_max_left _ _)

/-- Witness for `height_budget_floors` at a concrete layout request. -/
theorem height_budget_floors_witness :
    0 ≤ (compute_height_budget 25 true true false 2 1 false).thinking ∧
    0 ≤ (compute_height_budget 25 true true false 2 1 false).response ∧
    1 ≤ (compute_height_budget 25 true true false 2 1 false).lines_per_tool ∧
    6 ≤ compute_content_budget 25 true true false 2 1 false :=
  height_budget_floors 25 true true false false 2 1 (by norm_num) (by norm_num)

/-! ## Tail-window truncation (`cli.py`, `truncate_to_lines`)

Python strings are modelled as `List Char`; `text.split('\n')` and
`'\n'.join(...)` become `pySplitNl`/`pyJoinNl`. -/

/-- Python `text.split('\n')`: splitting the empty string yields one
empty line. -/
def pySplitNl : List Char → List (List Char)
  | [] => [[]]
  | c :: cs =>
    if c = '\n' then [] :: pySplitNl cs
    else
      match pySplitNl cs with
      | [] => [[c]]
      | l :: ls => (c :: l) :: ls

/-- Python `'\n'.join(...)`. -/
def pyJoinNl : List (List Char) → List Char
  | [] => []
  | l :: ls =>
    match ls with
    | [] => l
    | _ :: _ => l ++ '\n' :: pyJoinNl ls

/-- Python list slice `l[i:]` for an arbitrary integer start index:
non-negative indices drop from the front, negative indices count from
the end and clamp at the head. -/
def pySliceFrom (l : List (List Char)) (i : Int) : List (List Char) :=
  if 0 ≤ i then l.drop i.toNat
  else l.drop (l.length - (-i).toNat)

/-- `truncate_to_lines` (cli.py lines 139-144): within the cap return
the text unchanged, otherwise return `"...\n"` followed by the join of
`lines[-max_lines + 1:]`. -/
def truncate_to_lines (text : List Char) (max_lines : Nat) : List Char :=
  let lines := pySplitNl text
  if lines.length ≤ max_lines then text
  else ('.' :: '.' :: '.' :: '\n' :: []) ++
    pyJoinNl (pySliceFrom lines (1 - (max_lines : Int)))

theorem pySplitNl_ne_nil (s : List Char) : pySplitNl s ≠ [] := by
  match s with
  | [] => simp [pySplitNl]
  | c :: cs =>
    simp only [pySplitNl]
    split
    · simp
    · split <;> simp

theorem pySplitNl_no_nl (s : List Char) :
    ∀ l ∈ pySplitNl s, '\n' ∉ l := by
  induction s with
  | nil =>
    intro l hl
    simp only [pySplitNl, List.mem_singleton] at hl
    simp [hl]
  | cons c cs ih =>
    intro l hl
    simp only [pySplitNl] at hl
    by_cases hc : c = '\n'
    · rw [if_pos hc] at hl
      rcases List.mem_cons.mp hl with rfl | hl
      · simp
      · exact ih l hl
    · rw [if_neg hc] at hl
      rcases hsp : pySplitNl cs with _ | ⟨l₀, ls⟩
      · exact absurd hsp (pySplitNl_ne_nil cs)
      · rw [hsp] at hl
        rcases List.mem_cons.mp hl with rfl | hl
        · intro hmem
          rcases List.mem_cons.mp hmem with he | hmem
          · exact hc he.symm
          · exact ih l₀ (by rw [hsp]; simp) hmem
        · exact ih l (by rw [hsp]; exact List.mem_cons_of_mem _ hl)

theorem pySplitNl_no_newline_eq (s : List Char) (h : '\n' ∉ s) :
    pySplitNl s = [s] := by
  induction s with
  | nil => rfl
  | cons c cs ih =>
    simp only [List.mem_cons, not_or] at h
    simp only [pySplitNl]
    rw [if_neg (fun he => h.1 he.symm), ih h.2]

theorem pySplitNl_append_nl (l rest : List Char) (h : '\n' ∉ l) :
    pySplitNl (l ++ '\n' :: rest) = l :: pySplitNl rest := by
  induction l with
  | nil => simp [pySplitNl]
  | cons c l ih =>
    simp only [List.mem_cons, not_or] at h
    simp only [List.cons_append, pySplitNl, List.append_eq]
    rw [if_neg (fun he => h.1 he.symm), ih h.2]

theorem pyJoinNl_cons_cons (l l₂ : List Char) (ls : List (List Char)) :
    pyJoinNl (l :: l₂ :: ls) = l ++ '\n' :: pyJoinNl (l₂ :: ls) := rfl

theorem pySplitNl_pyJoinNl (L : List (List Char)) (hne : L ≠ [])
    (h : ∀ l ∈ L, '\n' ∉ l) : pySplitNl (pyJoinNl L) = L := by
  induction L with
  | nil => exact absurd rfl hne
  | cons l ls ih =>
    rcases ls with _ | ⟨l₂, ls'⟩
    · show pySplitNl (pyJoinNl [l]) = [l]
      have hj : pyJoinNl [l] = l := rfl
      rw [hj, pySplitNl_no_newline_eq l (h l (by simp))]
    · rw [pyJoinNl_cons_cons, pySplitNl_append_nl l _ (h l (by simp))]
      rw [ih (by simp) (fun x hx => h x (List.mem_cons_of_mem _ hx))]

/-- C8 (amended): for every line cap of at least 2, `truncate_to_lines`
returns the text unchanged when its line count is within the cap, and
otherwise returns exactly the last `cap - 1` lines prefixed by one
ellipsis marker line, so the result has exactly `cap` lines.  (For caps
0 and 1 the Python slice `lines[-max_lines + 1:]` wraps around and the
property fails; see the counterexample.) -/
theorem truncate_tail_window (text : List Char) (m : Nat) (hm : 2 ≤ m) :
    ((pySplitNl text).length ≤ m → truncate_to_lines text m = text) ∧
    (m < (pySplitNl text).length →
      truncate_to_lines text m
        = ('.' :: '.' :: '.' :: '\n' :: []) ++
            pyJoinNl ((pySplitNl text).drop
              ((pySplitNl text).length - (m - 1))) ∧
      (pySplitNl (truncate_to_lines text m)).length = m) := by
  constructor
  · intro h
    unfold truncate_to_lines
    rw [if_pos h]
  · intro h
    have hnot : ¬ ((pySplitNl text).length ≤ m) := by omega
    have hslice : pySliceFrom (pySplitNl text) (1 - (m : Int))
        = (pySplitNl text).drop ((pySplitNl text).length - (m - 1)) := by
      unfold pySliceFrom
      rw [if_neg (by omega)]
      congr 1
      omega
    have heq : truncate_to_lines text m
        = ('.' :: '.' :: '.' :: '\n' :: []) ++
            pyJoinNl ((pySplitNl text).drop
              ((pySplitNl text).length - (m - 1))) := by
      unfold truncate_to_lines
      rw [if_neg hnot, hslice]
    refine ⟨heq, ?_⟩
    have hlen : ((pySplitNl text).drop
        ((pySplitNl text).length - (m - 1))).length = m - 1 := by
      rw [List.length_drop]
      omega
    have hdne : (pySplitNl text).drop ((pySplitNl text).length - (m - 1)) ≠ [] := by
      intro hd
      rw [hd] at hlen
      simp at hlen
      omega
    have hdnl : ∀ l ∈ (pySplitNl text).drop
        ((pySplitNl text).length - (m - 1)), '\n' ∉ l :=
      fun l hl => pySplitNl_no_nl text l (List.drop_subset _ _ hl)
    rw [heq]
    have hsp : pySplitNl (('.' :: '.' :: '.' :: '\n' :: []) ++
        pyJoinNl ((pySplitNl text).drop ((pySplitNl text).length - (m - 1))))
        = ('.' :: '.' :: '.' :: []) :: pySplitNl (pyJoinNl
            ((pySplitNl text).drop ((pySplitNl text).length - (m - 1)))) := by
      exact pySplitNl_append_nl ['.', '.', '.'] _ (by decide)
    rw [hsp, pySplitNl_pyJoinNl _ hdne hdnl]
    simp only [List.length_cons, hlen]
    omega

/-- Witness for `truncate_tail_window` on a five-line text with cap 3:
the last two lines survive under one marker line. -/
theorem truncate_tail_window_witness :
    truncate_to_lines ['a', '\n', 'b', '\n', 'c', '\n', 'd', '\n', 'e'] 3
      = ['.', '.', '.', '\n', 'd', '\n', 'e'] ∧
    (pySplitNl (truncate_to_lines
      ['a', '\n', 'b', '\n', 'c', '\n', 'd', '\n', 'e'] 3)).length = 3 := by
  have h := (truncate_tail_window
    ['a', '\n', 'b', '\n', 'c', '\n', 'd', '\n', 'e'] 3 (by norm_num)).2
    (by decide)
  exact ⟨h.1.trans (by decide), h.2⟩

/-- C8 counterexample: with cap 1 and the two-line text `"a\nb"`, the
Python slice `lines[-1 + 1:]` is `lines[0:]` — the whole list — so the
result keeps all lines under the marker and has 3 lines, not the
claimed 1. -/
theorem truncate_cex :
    truncate_to_lines ['a', '\n', 'b'] 1
      = ['.', '.', '.', '\n', 'a', '\n', 'b'] ∧
    (pySplitNl (truncate_to_lines ['a', '\n', 'b'] 1)).length = 3 := by
  decide

end ADFAgent
